import Mathlib

/-!
Shallow embedding of the trace-processor profile-statistics pipeline
(`src/profile_stats.rs`) and proofs about it.

Times are modelled as rationals (`ℚ`): the source stores microsecond
timestamps in `f64` and performs only field arithmetic (add, subtract,
divide, compare, max) on them, so every statement proved here is about the
exact arithmetic the source expresses.  Operation names are modelled as
`List Char` (the source compares them byte-for-byte and searches
substrings, never re-encodes them).  The stable `sort_by` calls of the
source are modelled by `List.insertionSort`, which is stable and total on
the rational keys.  Fallible computations return `Except String`.
-/

/-- `ProfileStep` event (name, absolute start/end in µs). -/
structure ProfileStep where
  name : List Char
  start_time : ℚ
  end_time : ℚ
  deriving DecidableEq, Repr

/-- A GPU operation record (name, absolute or step-relative times, duration). -/
structure GpuOperation where
  name : List Char
  start_time : ℚ
  end_time : ℚ
  duration : ℚ
  deriving DecidableEq, Repr

/-- One emitted report row. -/
structure ProfileStatsRecord where
  operation_name : List Char
  avg_start_time_us : ℚ
  avg_end_time_us : ℚ
  avg_duration_us : ℚ
  bubble_time_us : ℚ
  deriving DecidableEq, Repr

/-- Per reference-position accumulator (`PositionStats` in the source). -/
structure PositionStats where
  total_start : ℚ
  total_end : ℚ
  total_duration : ℚ
  total_bubble : ℚ
  count : Nat
  deriving DecidableEq, Repr

/-- `PositionStats::default()` — all-zero accumulator. -/
def PositionStats.init : PositionStats :=
  { total_start := 0, total_end := 0, total_duration := 0, total_bubble := 0, count := 0 }

/-- Index of the last occurrence of `c` in `l` (Rust `str::rfind` restricted
to the single character actually searched for by the source). -/
def rfindIdx (l : List Char) (c : Char) : Option Nat :=
  match l with
  | [] => none
  | a :: rest =>
    match rfindIdx rest c with
    | some i => some (i + 1)
    | none => if a = c then some 0 else none

/-- `normalize_op_name`: if the suffix starting at the last occurrence of
the character stored in `bracket` ends with the four characters of
`" us]"` or `" ms]"`, drop everything from that bracket on; otherwise
return the name unchanged. -/
def normalize_op_name (name : List Char) : List Char :=
  match rfindIdx name '[' with
  | some bracket_pos =>
    let suffix := name.drop bracket_pos
    if (" us]" : String).toList.isSuffixOf suffix
        || (" ms]" : String).toList.isSuffixOf suffix then
      name.take bracket_pos
    else
      name
  | none => name

/-- Rust `str::contains`: `needle` occurs contiguously inside `hay`. -/
def containsSub (hay needle : List Char) : Bool :=
  needle.isPrefixOf hay ||
    match hay with
    | [] => false
    | _ :: t => containsSub t needle

/-- One `*length_counts.entry(len).or_insert(0) += 1` update on the tally,
kept in first-insertion order. -/
def bumpTally (tally : List (Nat × Nat)) (len : Nat) : List (Nat × Nat) :=
  match tally with
  | [] => [(len, 1)]
  | (l, c) :: rest =>
    if l = len then (l, c + 1) :: rest else (l, c) :: bumpTally rest len

/-- The `length_counts` tally: how many non-empty per-step sequences have
each distinct length. -/
def tallyLengths (step_operations : List (List GpuOperation)) : List (Nat × Nat) :=
  (step_operations.filter (fun ops => !ops.isEmpty)).foldl
    (fun t ops => bumpTally t ops.length) []

/-- Rust `Iterator::max_by_key` on the tally entries (keyed by the count,
the last of several equal maxima wins). -/
def selectMax (tally : List (Nat × Nat)) : Option (Nat × Nat) :=
  tally.foldl
    (fun acc p =>
      match acc with
      | none => some p
      | some q => if q.2 ≤ p.2 then some p else some q)
    none

/-- `most_common_length`: the length whose tally is maximal. -/
def selectLen (tally : List (Nat × Nat)) : Option Nat :=
  (selectMax tally).map Prod.fst

/-- Position-by-position name comparison against the reference sequence. -/
def namesMatch (step_ops reference_step : List GpuOperation) : Bool :=
  (step_ops.zip reference_step).all (fun p => p.1.name == p.2.name)

/-- Mutable state of the aggregation loop: the per-position accumulators
and the two mismatch counters. -/
structure AggState where
  position_stats : List PositionStats
  skipped_count : Nat
  name_mismatch_count : Nat
  deriving DecidableEq, Repr

/-- Zero-initialised aggregation state for a reference of the given length. -/
def initAggState (num_operations : Nat) : AggState :=
  { position_stats := List.replicate num_operations PositionStats.init
  , skipped_count := 0
  , name_mismatch_count := 0 }

/-- The inner accumulation loop over a fully matching step: walk the
operations and accumulators in lockstep, carrying `prev_end_time`. -/
def addOps (prev_end_time : ℚ) (position_stats : List PositionStats)
    (step_ops : List GpuOperation) : List PositionStats :=
  match position_stats, step_ops with
  | p :: ps, cur_op :: rest =>
    { total_start := p.total_start + cur_op.start_time
    , total_end := p.total_end + cur_op.end_time
    , total_duration := p.total_duration + cur_op.duration
    , total_bubble := p.total_bubble + max (cur_op.start_time - prev_end_time) 0
    , count := p.count + 1 } :: addOps cur_op.end_time ps rest
  | ps, [] => ps
  | [], _ => []

/-- One iteration of the per-step loop of `calculate_average_stats`:
skip on length mismatch, skip on name mismatch, otherwise accumulate. -/
def processStep (reference_step : List GpuOperation) (st : AggState)
    (step_ops : List GpuOperation) : AggState :=
  if step_ops.length ≠ reference_step.length then
    { st with skipped_count := st.skipped_count + 1 }
  else if !namesMatch step_ops reference_step then
    { st with name_mismatch_count := st.name_mismatch_count + 1 }
  else
    { st with position_stats := addOps 0 st.position_stats step_ops }

/-- The whole per-step aggregation loop. -/
def aggregateSteps (reference_step : List GpuOperation)
    (step_operations : List (List GpuOperation)) : AggState :=
  step_operations.foldl (processStep reference_step) (initAggState reference_step.length)

/-- Finalisation of one position: each accumulated sum divided by the
contributing count. -/
def avgRecord (ref_op : GpuOperation) (p : PositionStats) : ProfileStatsRecord :=
  { operation_name := ref_op.name
  , avg_start_time_us := p.total_start / (p.count : ℚ)
  , avg_end_time_us := p.total_end / (p.count : ℚ)
  , avg_duration_us := p.total_duration / (p.count : ℚ)
  , bubble_time_us := p.total_bubble / (p.count : ℚ) }

/-- The emission loop: walk the reference and the accumulators in lockstep,
pushing a row only when the position's count is positive. -/
def emitStats : List GpuOperation → List PositionStats → List ProfileStatsRecord
  | ref_op :: refRest, p :: posRest =>
    if 0 < p.count then avgRecord ref_op p :: emitStats refRest posRest
    else emitStats refRest posRest
  | _, _ => []

/-- `calculate_average_stats`: representative-shape selection followed by
strict positional aggregation and emission. -/
def calculate_average_stats (step_operations : List (List GpuOperation)) :
    Except String (List ProfileStatsRecord) :=
  if step_operations.isEmpty then
    Except.error ("No ProfileStep data available")
  else
    match selectLen (tallyLengths step_operations) with
    | none => Except.error ("All ProfileSteps are empty")
    | some most_common_length =>
      match step_operations.find? (fun ops => ops.length == most_common_length) with
      | none => Except.error ("All ProfileSteps are empty")
      | some reference_step =>
        Except.ok (emitStats reference_step
          (aggregateSteps reference_step step_operations).position_stats)

/-- The prefill/decode duration threshold (30 ms in µs). -/
def DECODE_MAX_DURATION_US : ℚ := 30000

/-- `profile_steps.retain(|step| duration <= DECODE_MAX_DURATION_US)`. -/
def filterDecodeSteps (profile_steps : List ProfileStep) : List ProfileStep :=
  profile_steps.filter
    (fun step => decide (step.end_time - step.start_time ≤ DECODE_MAX_DURATION_US))

/-- Stable sort of the steps by absolute start time. -/
def sortSteps (profile_steps : List ProfileStep) : List ProfileStep :=
  List.insertionSort (fun a b => a.start_time ≤ b.start_time) profile_steps

/-- Stable sort of the operations by absolute start time. -/
def sortOps (gpu_operations : List GpuOperation) : List GpuOperation :=
  List.insertionSort (fun a b => a.start_time ≤ b.start_time) gpu_operations

/-- Containment filter plus conversion to step-relative coordinates. -/
def opsInStep (gpu_operations : List GpuOperation) (step : ProfileStep) :
    List GpuOperation :=
  (gpu_operations.filter
      (fun op => decide (op.start_time ≥ step.start_time)
        && decide (op.end_time ≤ step.end_time))).map
    (fun op =>
      { name := op.name
      , start_time := op.start_time - step.start_time
      , end_time := op.end_time - step.start_time
      , duration := op.duration })

/-- One step's bucket: containment, re-basing, and the per-step sort by
relative start time. -/
def segmentStep (gpu_operations : List GpuOperation) (step : ProfileStep) :
    List GpuOperation :=
  List.insertionSort (fun a b => a.start_time ≤ b.start_time) (opsInStep gpu_operations step)

/-- Anchor trimming: drop everything before the first operation whose name
contains `trim_kernel`, and re-base the remaining coordinates at that
operation's relative start; if nothing matches, keep the list unchanged. -/
def trimStep (trim_kernel : List Char) (ops_in_step : List GpuOperation) :
    List GpuOperation :=
  match ops_in_step.dropWhile (fun op => !containsSub op.name trim_kernel) with
  | [] => ops_in_step
  | first :: rest =>
    (first :: rest).map
      (fun op =>
        { name := op.name
        , start_time := op.start_time - first.start_time
        , end_time := op.end_time - first.start_time
        , duration := op.duration })

/-- The optional-anchor wrapper around `trimStep`. -/
def applyTrim (trim_start_kernel : Option (List Char))
    (ops_in_step : List GpuOperation) : List GpuOperation :=
  match trim_start_kernel with
  | some trim_kernel => trimStep trim_kernel ops_in_step
  | none => ops_in_step

/-- The segmentation loop of `analyze_profile_stats`: one bucket per
(kept) step, trimmed when an anchor was supplied. -/
def buildStepOperations (gpu_operations : List GpuOperation)
    (profile_steps : List ProfileStep)
    (trim_start_kernel : Option (List Char)) : List (List GpuOperation) :=
  profile_steps.map (fun step => applyTrim trim_start_kernel (segmentStep gpu_operations step))

/-- The post-parsing core of `analyze_profile_stats`: empty-input check,
sorting, the decode-duration filter with its fatal-error branch,
segmentation and aggregation.  (File I/O, JSON decoding, CSV writing and
console logging are outside the embedded core.) -/
def analyze_core (profile_steps0 : List ProfileStep)
    (gpu_operations0 : List GpuOperation)
    (trim_start_kernel : Option (List Char)) :
    Except String (List ProfileStatsRecord) :=
  if profile_steps0.isEmpty then
    Except.error ("No ProfileStep events found")
  else
    let profile_steps := sortSteps profile_steps0
    let gpu_operations := sortOps gpu_operations0
    let kept := filterDecodeSteps profile_steps
    if kept.isEmpty then
      Except.error ("No decode ProfileStep events found after filtering")
    else
      calculate_average_stats (buildStepOperations gpu_operations kept trim_start_kernel)

/-- Spec-side predicate (for claim statements only): the token between the
bracket and the unit is a numeric value, e.g. `2.464` or `123`. -/
def isNumericToken (s : List Char) : Bool :=
  !s.isEmpty && s.all (fun c => c.isDigit || c == '.') && s.any (fun c => c.isDigit)

/-- Spec-side predicate (for claim statements only): the name ends with a
bracketed suffix of the exact shape described by the spec —
a `[`, a numeric value, then `" us]"` or `" ms]"` closing the name. -/
def specNumericDurationSuffix (name : List Char) : Bool :=
  match rfindIdx name '[' with
  | none => false
  | some p =>
    let suffix := name.drop p
    ((" us]" : String).toList.isSuffixOf suffix
        || (" ms]" : String).toList.isSuffixOf suffix)
      && isNumericToken ((suffix.drop 1).take (suffix.length - 5))

/-- Spec-side tally (for claim statements): how many non-empty sequences
have length `l`. -/
def lengthTally (step_operations : List (List GpuOperation)) (l : Nat) : Nat :=
  (step_operations.filter (fun ops => !ops.isEmpty)).countP (fun ops => ops.length == l)

/-- First-entry lookup in the tally association list (0 when absent). -/
def lookupTally (tally : List (Nat × Nat)) (len : Nat) : Nat :=
  match tally with
  | [] => 0
  | (l, c) :: rest => if l = len then c else lookupTally rest len

/-- The value of the previous-end cursor seen at position `i` of the inner
accumulation loop started with cursor value `prev`: `prev` at position 0,
the previous operation's end time afterwards. -/
def prevEnd (prev : ℚ) (step_ops : List GpuOperation) : Nat → ℚ
  | 0 => prev
  | j + 1 =>
    match step_ops[j]? with
    | some op => op.end_time
    | none => prev

/-! ## Lemmas about `rfindIdx` -/

theorem rfindIdx_eq_none_iff (l : List Char) (c : Char) :
    rfindIdx l c = none ↔ c ∉ l := by
  induction l with
  | nil => simp [rfindIdx]
  | cons a rest ih =>
    cases hr : rfindIdx rest c with
    | some i =>
      have hc : c ∈ rest := by
        by_contra hcn
        rw [← ih, hr] at hcn
        exact Option.noConfusion hcn
      simp only [rfindIdx, hr, List.mem_cons]
      constructor
      · intro h; exact Option.noConfusion h
      · intro h; exact absurd (Or.inr hc) h
    | none =>
      have hrest : c ∉ rest := ih.mp hr
      simp only [rfindIdx, hr, List.mem_cons]
      by_cases hac : a = c
      · rw [if_pos hac]
        constructor
        · intro h; exact Option.noConfusion h
        · intro h; exact absurd (Or.inl hac.symm) h
      · rw [if_neg hac]
        constructor
        · intro _ h
          rcases h with h | h
          · exact hac h.symm
          · exact hrest h
        · intro _; rfl

theorem mem_of_getElem_eq_some {α : Type} (l : List α) (n : Nat) (a : α)
    (h : l[n]? = some a) : a ∈ l := by
  obtain ⟨hn, he⟩ := List.getElem?_eq_some.mp h
  exact he ▸ List.getElem_mem hn

theorem rfindIdx_spec (l : List Char) (c : Char) (p : Nat)
    (h : rfindIdx l c = some p) :
    l[p]? = some c ∧ ∀ q, p < q → l[q]? ≠ some c := by
  induction l generalizing p with
  | nil => simp [rfindIdx] at h
  | cons a rest ih =>
    cases hr : rfindIdx rest c with
    | some i =>
      simp only [rfindIdx, hr, Option.some.injEq] at h
      subst h
      obtain ⟨h1, h2⟩ := ih i hr
      refine ⟨by simpa using h1, ?_⟩
      intro q hq
      cases q with
      | zero => omega
      | succ j =>
        rw [List.getElem?_cons_succ]
        exact h2 j (by omega)
    | none =>
      simp only [rfindIdx, hr] at h
      split at h
      · next hac =>
        cases h
        subst hac
        refine ⟨by simp, ?_⟩
        intro q hq
        cases q with
        | zero => omega
        | succ j =>
          rw [List.getElem?_cons_succ]
          intro hj
          exact (rfindIdx_eq_none_iff rest a).mp hr (mem_of_getElem_eq_some _ _ _ hj)
      · cases h

/-! ## Claims C5 and C6: name normalization -/

/-- Claim C5 as stated is false on the code: the name `op[abc us]` does not
end in a `[<number> us]` suffix (the token `abc` is not numeric), yet
normalization does not return it unchanged — it strips the bracketed tail
anyway, because the code only checks that the suffix from the last `[`
ends in `" us]"` or `" ms]"`. -/
theorem normalize_numeric_shape_counterexample :
    specNumericDurationSuffix (("op[abc us]" : String).toList) = false ∧
    normalize_op_name (("op[abc us]" : String).toList) ≠ ("op[abc us]" : String).toList := by
  constructor
  · decide
  · decide

/-- Claim C5 (amended): normalization strips the suffix beginning at the
last occurrence of the bracket character exactly when the name contains a
bracket at all and its last four characters are `" us]"` or `" ms]"`; the
characters between the bracket and the unit token are not validated.
Otherwise the name is returned unchanged. -/
theorem normalize_op_name_strip_amended (name : List Char) :
    (('[' ∈ name ∧
        ((" us]" : String).toList <:+ name ∨ (" ms]" : String).toList <:+ name)) →
      ∃ p, name[p]? = some '[' ∧ (∀ q, p < q → name[q]? ≠ some '[') ∧
        normalize_op_name name = name.take p) ∧
    (¬ ('[' ∈ name ∧
        ((" us]" : String).toList <:+ name ∨ (" ms]" : String).toList <:+ name)) →
      normalize_op_name name = name) := by
  constructor
  · rintro ⟨hbr, hsuf⟩
    obtain ⟨p, hp⟩ : ∃ p, rfindIdx name '[' = some p := by
      cases hf : rfindIdx name '[' with
      | none => exact absurd hbr ((rfindIdx_eq_none_iff name '[').mp hf)
      | some p => exact ⟨p, rfl⟩
    obtain ⟨hget, hlast⟩ := rfindIdx_spec name '[' p hp
    refine ⟨p, hget, hlast, ?_⟩
    have hdropsuf : ∀ s : List Char, s <:+ name → '[' ∉ s → s <:+ name.drop p := by
      intro s hs hnb
      obtain ⟨t, ht⟩ := hs
      have hple : p ≤ t.length := by
        by_contra hgt
        push_neg at hgt
        have : name[p]? = s[p - t.length]? := by
          rw [← ht]; exact List.getElem?_append_right (le_of_lt hgt)
        rw [hget] at this
        exact hnb (mem_of_getElem_eq_some _ _ _ this.symm)
      have : name.drop p = t.drop p ++ s := by
        rw [← ht, List.drop_append_eq_append_drop, Nat.sub_eq_zero_of_le hple,
          List.drop_zero]
      rw [this]
      exact List.suffix_append _ _
    have hcond : ((" us]" : String).toList.isSuffixOf (name.drop p)
        || (" ms]" : String).toList.isSuffixOf (name.drop p)) = true := by
      rcases hsuf with hs | hs
      · have h1 : (" us]" : String).toList.isSuffixOf (name.drop p) = true :=
          List.isSuffixOf_iff_suffix.mpr (hdropsuf _ hs (by decide))
        rw [h1, Bool.true_or]
      · have h1 : (" ms]" : String).toList.isSuffixOf (name.drop p) = true :=
          List.isSuffixOf_iff_suffix.mpr (hdropsuf _ hs (by decide))
        rw [h1, Bool.or_true]
    simp only [normalize_op_name, hp, hcond, if_pos]
  · intro hn
    cases hf : rfindIdx name '[' with
    | none => simp [normalize_op_name, hf]
    | some p =>
      obtain ⟨hget, _⟩ := rfindIdx_spec name '[' p hf
      have hbr : '[' ∈ name := mem_of_getElem_eq_some _ _ _ hget
      have hnosuf : ¬ ((" us]" : String).toList <:+ name ∨ (" ms]" : String).toList <:+ name) :=
        fun hsuf => hn ⟨hbr, hsuf⟩
      have hcond : ((" us]" : String).toList.isSuffixOf (name.drop p)
          || (" ms]" : String).toList.isSuffixOf (name.drop p)) = false := by
        rw [Bool.or_eq_false_iff]
        constructor
        · rw [Bool.eq_false_iff]
          intro hc
          exact hnosuf (Or.inl ((List.isSuffixOf_iff_suffix.mp hc).trans (List.drop_suffix p name)))
        · rw [Bool.eq_false_iff]
          intro hc
          exact hnosuf (Or.inr ((List.isSuffixOf_iff_suffix.mp hc).trans (List.drop_suffix p name)))
      simp only [normalize_op_name, hf, hcond, Bool.false_eq_true, if_false]

/-- Witness for the amended C5: the stripping branch on `a[1 us]` and the
unchanged branch on `plain`. -/
theorem normalize_op_name_strip_amended_witness :
    (∃ p, (("a[1 us]" : String).toList)[p]? = some '[' ∧
      (∀ q, p < q → (("a[1 us]" : String).toList)[q]? ≠ some '[') ∧
      normalize_op_name (("a[1 us]" : String).toList) = (("a[1 us]" : String).toList).take p) ∧
    normalize_op_name (("plain" : String).toList) = ("plain" : String).toList := by
  constructor
  · exact (normalize_op_name_strip_amended (("a[1 us]" : String).toList)).1
      ⟨by decide, Or.inl (by decide)⟩
  · exact (normalize_op_name_strip_amended (("plain" : String).toList)).2
      (fun h => absurd h.1 (by decide))

/-- Claim C6 as stated is false on the code: normalization is not
idempotent.  On `a[1 us][2 us]` one application strips only the last
bracketed suffix, leaving `a[1 us]`, which a second application strips
again to `a`. -/
theorem normalize_idempotent_counterexample :
    normalize_op_name (normalize_op_name (("a[1 us][2 us]" : String).toList)) ≠
      normalize_op_name (("a[1 us][2 us]" : String).toList) := by
  decide

/-- Claim C6 (amended): normalization is idempotent on every name that
contains at most one bracket character (in particular on every name with
at most one bracketed duration annotation); only names where the stripped
result itself ends in another strippable suffix renormalize differently. -/
theorem normalize_idempotent_amended (name : List Char)
    (h : name.count '[' ≤ 1) :
    normalize_op_name (normalize_op_name name) = normalize_op_name name := by
  cases hf : rfindIdx name '[' with
  | none =>
    have hid : normalize_op_name name = name := by simp [normalize_op_name, hf]
    rw [hid, hid]
  | some p =>
    by_cases hcond : ((" us]" : String).toList.isSuffixOf (name.drop p)
        || (" ms]" : String).toList.isSuffixOf (name.drop p)) = true
    · have hres : normalize_op_name name = name.take p := by
        simp only [normalize_op_name, hf, hcond, if_pos]
      obtain ⟨hget, _⟩ := rfindIdx_spec name '[' p hf
      obtain ⟨hplen, hgete⟩ := List.getElem?_eq_some.mp hget
      have hsplit : name = name.take p ++ name.drop p := (List.take_append_drop p name).symm
      have hdropc : name.drop p = '[' :: name.drop (p + 1) := by
        rw [List.drop_eq_getElem_cons hplen, hgete]
      have hcount : name.count '[' = (name.take p).count '[' + (name.drop p).count '[' := by
        conv_lhs => rw [hsplit]
        exact List.count_append _ _ _
      have hnotin : '[' ∉ name.take p := by
        rw [← List.count_eq_zero]
        rw [hdropc] at hcount
        simp only [List.count_cons, beq_self_eq_true, if_true] at hcount
        omega
      have hnone : rfindIdx (name.take p) '[' = none :=
        (rfindIdx_eq_none_iff _ _).mpr hnotin
      rw [hres]
      simp [normalize_op_name, hnone]
    · have hid : normalize_op_name name = name := by
        simp only [normalize_op_name, hf]
        rw [if_neg hcond]
      rw [hid, hid]

/-- Witness for the amended C6 at a name with a single bracket. -/
theorem normalize_idempotent_amended_witness :
    normalize_op_name (normalize_op_name (("x[3 us]" : String).toList)) =
      normalize_op_name (("x[3 us]" : String).toList) :=
  normalize_idempotent_amended (("x[3 us]" : String).toList) (by decide)

/-! ## Claim C9: anchor trimming -/

theorem dropWhile_head_eq_false {α : Type} (p : α → Bool) (l : List α) (a : α)
    (t : List α) (h : l.dropWhile p = a :: t) : p a = false := by
  induction l with
  | nil => simp at h
  | cons x xs ih =>
    rw [List.dropWhile_cons] at h
    split at h
    · exact ih h
    · next hx => cases h; simpa using hx

/-- Claim C9: anchor trimming is idempotent for a fixed anchor name (a
second application of `trimStep` with the same anchor leaves the
already-trimmed sequence unchanged), and when no operation's name contains
the anchor the sequence is left entirely unchanged. -/
theorem trim_idempotent_spec (trim_kernel : List Char) (ops : List GpuOperation) :
    trimStep trim_kernel (trimStep trim_kernel ops) = trimStep trim_kernel ops ∧
    ((∀ op ∈ ops, containsSub op.name trim_kernel = false) →
      trimStep trim_kernel ops = ops) := by
  constructor
  · cases hdrop : ops.dropWhile (fun op => !containsSub op.name trim_kernel) with
    | nil =>
      have h1 : trimStep trim_kernel ops = ops := by
        simp only [trimStep, hdrop]
      rw [h1]
      exact h1
    | cons first rest =>
      have hfirst : containsSub first.name trim_kernel = true := by
        have := dropWhile_head_eq_false _ _ _ _ hdrop
        simpa using this
      have h1 : trimStep trim_kernel ops =
          (first :: rest).map (fun op =>
            { name := op.name
            , start_time := op.start_time - first.start_time
            , end_time := op.end_time - first.start_time
            , duration := op.duration }) := by
        simp only [trimStep, hdrop]
      rw [h1]
      have hdrop2 : ((first :: rest).map (fun op =>
          { name := op.name
          , start_time := op.start_time - first.start_time
          , end_time := op.end_time - first.start_time
          , duration := op.duration } : GpuOperation → GpuOperation)).dropWhile
            (fun op => !containsSub op.name trim_kernel) =
          ({ name := first.name
           , start_time := first.start_time - first.start_time
           , end_time := first.end_time - first.start_time
           , duration := first.duration } : GpuOperation) :: rest.map (fun op =>
            { name := op.name
            , start_time := op.start_time - first.start_time
            , end_time := op.end_time - first.start_time
            , duration := op.duration }) := by
        rw [List.map_cons, List.dropWhile_cons]
        simp [hfirst]
      have h2 : trimStep trim_kernel ((first :: rest).map (fun op =>
          { name := op.name
          , start_time := op.start_time - first.start_time
          , end_time := op.end_time - first.start_time
          , duration := op.duration })) =
          (({ name := first.name
            , start_time := first.start_time - first.start_time
            , end_time := first.end_time - first.start_time
            , duration := first.duration } : GpuOperation) :: rest.map (fun op =>
              { name := op.name
              , start_time := op.start_time - first.start_time
              , end_time := op.end_time - first.start_time
              , duration := op.duration })).map (fun op =>
            { name := op.name
            , start_time := op.start_time - (first.start_time - first.start_time)
            , end_time := op.end_time - (first.start_time - first.start_time)
            , duration := op.duration }) := by
        simp only [trimStep, hdrop2]
      rw [h2]
      have hpt : ∀ a : GpuOperation,
          ({ name := a.name
           , start_time := a.start_time - (first.start_time - first.start_time)
           , end_time := a.end_time - (first.start_time - first.start_time)
           , duration := a.duration } : GpuOperation) = a := by
        intro a
        cases a
        simp [sub_self, sub_zero]
      calc (({ name := first.name
             , start_time := first.start_time - first.start_time
             , end_time := first.end_time - first.start_time
             , duration := first.duration } : GpuOperation) :: rest.map (fun op =>
               { name := op.name
               , start_time := op.start_time - first.start_time
               , end_time := op.end_time - first.start_time
               , duration := op.duration })).map (fun op =>
             { name := op.name
             , start_time := op.start_time - (first.start_time - first.start_time)
             , end_time := op.end_time - (first.start_time - first.start_time)
             , duration := op.duration })
          = (({ name := first.name
              , start_time := first.start_time - first.start_time
              , end_time := first.end_time - first.start_time
              , duration := first.duration } : GpuOperation) :: rest.map (fun op =>
                { name := op.name
                , start_time := op.start_time - first.start_time
                , end_time := op.end_time - first.start_time
                , duration := op.duration })).map id :=
            List.map_congr_left (fun a _ => hpt a)
        _ = ({ name := first.name
             , start_time := first.start_time - first.start_time
             , end_time := first.end_time - first.start_time
             , duration := first.duration } : GpuOperation) :: rest.map (fun op =>
               { name := op.name
               , start_time := op.start_time - first.start_time
               , end_time := op.end_time - first.start_time
               , duration := op.duration }) := List.map_id _
        _ = (first :: rest).map (fun op =>
              { name := op.name
              , start_time := op.start_time - first.start_time
              , end_time := op.end_time - first.start_time
              , duration := op.duration }) := by rw [List.map_cons]
  · intro hno
    have hdrop0 : ops.dropWhile (fun op => !containsSub op.name trim_kernel) = [] :=
      List.dropWhile_eq_nil_iff.mpr (fun x hx => by simp [hno x hx])
    simp only [trimStep, hdrop0]

/-- Witness for C9: a list with a matching anchor for the idempotence part,
and an anchor matching nothing for the unchanged part. -/
theorem trim_idempotent_spec_witness :
    (trimStep (("w" : String).toList) (trimStep (("w" : String).toList)
        [⟨("a" : String).toList, 0, 1, 1⟩, ⟨("w1" : String).toList, 3, 4, 1⟩]) =
      trimStep (("w" : String).toList)
        [⟨("a" : String).toList, 0, 1, 1⟩, ⟨("w1" : String).toList, 3, 4, 1⟩]) ∧
    trimStep (("w" : String).toList) [⟨("a" : String).toList, 0, 1, 1⟩] =
      [⟨("a" : String).toList, 0, 1, 1⟩] := by
  constructor
  · exact (trim_idempotent_spec (("w" : String).toList)
      [⟨("a" : String).toList, 0, 1, 1⟩, ⟨("w1" : String).toList, 3, 4, 1⟩]).1
  · exact (trim_idempotent_spec (("w" : String).toList)
      [⟨("a" : String).toList, 0, 1, 1⟩]).2 (by decide)

/-! ## Claim C7: the decode-duration filter -/

/-- Claim C7: a step whose duration strictly exceeds the 30 ms (30000 µs)
threshold is discarded by the pre-segmentation filter (so it reaches
neither shape selection nor aggregation, which consume only the filtered
list — fourth conjunct), a step of exactly the threshold duration is kept,
and an empty post-filter list is a fatal error. -/
theorem decode_duration_filter_spec (profile_steps : List ProfileStep) (s : ProfileStep) :
    (DECODE_MAX_DURATION_US < s.end_time - s.start_time →
      s ∉ filterDecodeSteps profile_steps) ∧
    (s ∈ profile_steps → s.end_time - s.start_time = DECODE_MAX_DURATION_US →
      s ∈ filterDecodeSteps profile_steps) ∧
    (∀ gpu_operations0 trim_start_kernel,
      profile_steps ≠ [] →
      filterDecodeSteps (sortSteps profile_steps) = [] →
      analyze_core profile_steps gpu_operations0 trim_start_kernel =
        Except.error ("No decode ProfileStep events found after filtering")) ∧
    (∀ gpu_operations0 trim_start_kernel,
      profile_steps ≠ [] →
      filterDecodeSteps (sortSteps profile_steps) ≠ [] →
      analyze_core profile_steps gpu_operations0 trim_start_kernel =
        calculate_average_stats
          (buildStepOperations (sortOps gpu_operations0)
            (filterDecodeSteps (sortSteps profile_steps)) trim_start_kernel)) := by
  refine ⟨?_, ?_, ?_, ?_⟩
  · intro hdur hmem
    rw [filterDecodeSteps, List.mem_filter] at hmem
    exact absurd hdur (not_lt.mpr (of_decide_eq_true hmem.2))
  · intro hmem hdur
    rw [filterDecodeSteps, List.mem_filter]
    exact ⟨hmem, decide_eq_true (le_of_eq hdur)⟩
  · intro g k hne hempty
    simp only [analyze_core, List.isEmpty_eq_false.mpr hne, Bool.false_eq_true, if_false,
      hempty, List.isEmpty_nil, if_true]
  · intro g k hne hkept
    simp only [analyze_core, List.isEmpty_eq_false.mpr hne, Bool.false_eq_true, if_false,
      List.isEmpty_eq_false.mpr hkept]

/-- Witness for C7: a 45 ms step is dropped (and forces the fatal error
when it is the only step), a step of exactly 30 ms is kept. -/
theorem decode_duration_filter_spec_witness :
    (⟨("p" : String).toList, 0, 45000⟩ : ProfileStep) ∉
      filterDecodeSteps [⟨("p" : String).toList, 0, 45000⟩] ∧
    (⟨("q" : String).toList, 0, 30000⟩ : ProfileStep) ∈
      filterDecodeSteps [⟨("q" : String).toList, 0, 30000⟩] ∧
    analyze_core [⟨("p" : String).toList, 0, 45000⟩] [] none =
      Except.error ("No decode ProfileStep events found after filtering") ∧
    analyze_core [⟨("q" : String).toList, 0, 30000⟩] [] none =
      calculate_average_stats
        (buildStepOperations (sortOps [])
          (filterDecodeSteps (sortSteps [⟨("q" : String).toList, 0, 30000⟩])) none) := by
  refine ⟨?_, ?_, ?_, ?_⟩
  · exact (decode_duration_filter_spec [⟨("p" : String).toList, 0, 45000⟩]
      ⟨("p" : String).toList, 0, 45000⟩).1
      (by norm_num [DECODE_MAX_DURATION_US])
  · exact (decode_duration_filter_spec [⟨("q" : String).toList, 0, 30000⟩]
      ⟨("q" : String).toList, 0, 30000⟩).2.1
      (List.mem_singleton_self _) (by norm_num [DECODE_MAX_DURATION_US])
  · exact (decode_duration_filter_spec [⟨("p" : String).toList, 0, 45000⟩]
      ⟨("p" : String).toList, 0, 45000⟩).2.2.1 [] none
      (List.cons_ne_nil _ _)
      (by norm_num [filterDecodeSteps, sortSteps, List.insertionSort, List.orderedInsert,
        List.filter, DECODE_MAX_DURATION_US])
  · exact (decode_duration_filter_spec [⟨("q" : String).toList, 0, 30000⟩]
      ⟨("q" : String).toList, 0, 30000⟩).2.2.2 [] none
      (List.cons_ne_nil _ _)
      (by norm_num [filterDecodeSteps, sortSteps, List.insertionSort, List.orderedInsert,
        List.filter, DECODE_MAX_DURATION_US])

/-! ## Claim C8: step-relative coordinates -/

/-- Claim C8: an operation attributed to a step by the containment test in
well-formed input has step-relative coordinates satisfying
`0 ≤ relative_start ≤ relative_end ≤ step.end − step.start`. -/
theorem segment_relative_coords_spec (gpu_operations : List GpuOperation)
    (step : ProfileStep) (op : GpuOperation)
    (hw : ∀ o ∈ gpu_operations, o.start_time ≤ o.end_time)
    (hmem : op ∈ segmentStep gpu_operations step) :
    0 ≤ op.start_time ∧ op.start_time ≤ op.end_time ∧
      op.end_time ≤ step.end_time - step.start_time := by
  rw [segmentStep, List.mem_insertionSort, opsInStep, List.mem_map] at hmem
  obtain ⟨o, ho, rfl⟩ := hmem
  rw [List.mem_filter] at ho
  obtain ⟨hog, hcond⟩ := ho
  rw [Bool.and_eq_true, decide_eq_true_eq, decide_eq_true_eq] at hcond
  obtain ⟨h1, h2⟩ := hcond
  refine ⟨?_, ?_, ?_⟩
  · exact sub_nonneg.mpr h1
  · exact sub_le_sub_right (hw o hog) _
  · exact sub_le_sub_right h2 _

/-- Witness for C8 at a single contained operation. -/
theorem segment_relative_coords_spec_witness :
    0 ≤ ((5 : ℚ) - 3) ∧ ((5 : ℚ) - 3) ≤ ((7 : ℚ) - 3) ∧
      ((7 : ℚ) - 3) ≤ (10 : ℚ) - 3 := by
  have hmem : (⟨("k" : String).toList, (5 : ℚ) - 3, (7 : ℚ) - 3, 2⟩ : GpuOperation) ∈
      segmentStep [⟨("k" : String).toList, 5, 7, 2⟩] ⟨("s" : String).toList, 3, 10⟩ := by
    have h : segmentStep [⟨("k" : String).toList, 5, 7, 2⟩] ⟨("s" : String).toList, 3, 10⟩ =
        [⟨("k" : String).toList, (5 : ℚ) - 3, (7 : ℚ) - 3, 2⟩] := rfl
    rw [h]
    exact List.mem_singleton_self _
  exact segment_relative_coords_spec [⟨("k" : String).toList, 5, 7, 2⟩]
    ⟨("s" : String).toList, 3, 10⟩ _ (by decide) hmem

/-! ## Claims C2 and C3: the per-step aggregation loop -/

theorem addOps_getElem (position_stats : List PositionStats)
    (step_ops : List GpuOperation) (prev : ℚ) (i : Nat)
    (p : PositionStats) (cur_op : GpuOperation)
    (hp : position_stats[i]? = some p) (ho : step_ops[i]? = some cur_op) :
    (addOps prev position_stats step_ops)[i]? =
      some { total_start := p.total_start + cur_op.start_time
           , total_end := p.total_end + cur_op.end_time
           , total_duration := p.total_duration + cur_op.duration
           , total_bubble :=
               p.total_bubble + max (cur_op.start_time - prevEnd prev step_ops i) 0
           , count := p.count + 1 } := by
  induction i generalizing position_stats step_ops prev with
  | zero =>
    cases position_stats with
    | nil => simp at hp
    | cons p0 ps =>
      cases step_ops with
      | nil => simp at ho
      | cons c0 cs =>
        simp only [List.getElem?_cons_zero, Option.some.injEq] at hp ho
        subst hp
        subst ho
        simp [addOps, prevEnd]
  | succ j ih =>
    cases position_stats with
    | nil => simp at hp
    | cons p0 ps =>
      cases step_ops with
      | nil => simp at ho
      | cons c0 cs =>
        rw [List.getElem?_cons_succ] at hp ho
        have hpe : prevEnd prev (c0 :: cs) (j + 1) = prevEnd c0.end_time cs j := by
          cases j with
          | zero => simp [prevEnd]
          | succ k =>
            have hk : k < cs.length := by
              obtain ⟨hlt, _⟩ := List.getElem?_eq_some.mp ho
              omega
            obtain ⟨v, hv⟩ : ∃ v, cs[k]? = some v := ⟨_, List.getElem?_eq_getElem hk⟩
            simp only [prevEnd, List.getElem?_cons_succ]
            rw [hv]
        rw [hpe]
        simp only [addOps, List.getElem?_cons_succ]
        exact ih ps cs c0.end_time hp ho

/-- Claim C2: on a step that fully matches the reference (equal length,
identical names at every position), the aggregator only replaces the
accumulators by the lockstep accumulation `addOps 0 …`; at each in-range
position the accumulation adds the operation's start, end and duration,
adds `max 0 (start − previous end)` (hence a non-negative contribution)
to the bubble accumulator, bumps the count, and the cursor seen by the
next position is the current operation's end. -/
theorem aggregator_matching_step_spec (reference_step : List GpuOperation)
    (st : AggState) (step_ops : List GpuOperation)
    (hlen : step_ops.length = reference_step.length)
    (hnames : namesMatch step_ops reference_step = true) :
    processStep reference_step st step_ops =
      { st with position_stats := addOps 0 st.position_stats step_ops } ∧
    (∀ i p cur_op, st.position_stats[i]? = some p → step_ops[i]? = some cur_op →
      (addOps 0 st.position_stats step_ops)[i]? =
        some { total_start := p.total_start + cur_op.start_time
             , total_end := p.total_end + cur_op.end_time
             , total_duration := p.total_duration + cur_op.duration
             , total_bubble :=
                 p.total_bubble + max (cur_op.start_time - prevEnd 0 step_ops i) 0
             , count := p.count + 1 } ∧
      0 ≤ max (cur_op.start_time - prevEnd 0 step_ops i) 0 ∧
      prevEnd 0 step_ops (i + 1) = cur_op.end_time) := by
  constructor
  · simp [processStep, hlen, hnames]
  · intro i p cur_op hp ho
    refine ⟨addOps_getElem _ _ _ _ _ _ hp ho, le_max_right _ _, ?_⟩
    simp [prevEnd, ho]

/-- Witness for C2 at a one-operation reference matched by itself. -/
theorem aggregator_matching_step_spec_witness :
    processStep [⟨("a" : String).toList, 2, 3, 1⟩] (initAggState 1)
        [⟨("a" : String).toList, 2, 3, 1⟩] =
      { initAggState 1 with
          position_stats :=
            addOps 0 (initAggState 1).position_stats [⟨("a" : String).toList, 2, 3, 1⟩] } ∧
    ((addOps 0 (initAggState 1).position_stats [⟨("a" : String).toList, 2, 3, 1⟩])[0]? =
        some ⟨0 + 2, 0 + 3, 0 + 1, 0 + max ((2 : ℚ) - 0) 0, 0 + 1⟩ ∧
      0 ≤ max ((2 : ℚ) - 0) 0 ∧
      prevEnd 0 [⟨("a" : String).toList, 2, 3, 1⟩] 1 = 3) :=
  ⟨(aggregator_matching_step_spec [⟨("a" : String).toList, 2, 3, 1⟩] (initAggState 1)
      [⟨("a" : String).toList, 2, 3, 1⟩] rfl (by decide)).1,
   (aggregator_matching_step_spec [⟨("a" : String).toList, 2, 3, 1⟩] (initAggState 1)
      [⟨("a" : String).toList, 2, 3, 1⟩] rfl (by decide)).2 0 PositionStats.init
      ⟨("a" : String).toList, 2, 3, 1⟩ rfl rfl⟩

/-- Claim C3: a step whose length differs from the reference only bumps the
count-mismatch counter (accumulators and the other counter untouched); a
step of the right length whose names differ only bumps the name-mismatch
counter; in both cases the fold simply continues with the next step. -/
theorem aggregator_mismatch_spec (reference_step : List GpuOperation)
    (st : AggState) (step_ops : List GpuOperation) :
    (step_ops.length ≠ reference_step.length →
      processStep reference_step st step_ops =
        { st with skipped_count := st.skipped_count + 1 }) ∧
    (step_ops.length = reference_step.length →
      namesMatch step_ops reference_step = false →
      processStep reference_step st step_ops =
        { st with name_mismatch_count := st.name_mismatch_count + 1 }) ∧
    (∀ rest : List (List GpuOperation),
      List.foldl (processStep reference_step) st (step_ops :: rest) =
        List.foldl (processStep reference_step)
          (processStep reference_step st step_ops) rest) := by
  refine ⟨?_, ?_, ?_⟩
  · intro h
    simp [processStep, h]
  · intro hlen hnames
    simp [processStep, hlen, hnames]
  · intro rest
    rfl

/-- Witness for C3: a length-2 step against a length-1 reference, and a
name-mismatching step of the right length. -/
theorem aggregator_mismatch_spec_witness :
    processStep [⟨("a" : String).toList, 0, 1, 1⟩] (initAggState 1)
        [⟨("a" : String).toList, 0, 1, 1⟩, ⟨("a" : String).toList, 0, 1, 1⟩] =
      { initAggState 1 with skipped_count := (initAggState 1).skipped_count + 1 } ∧
    processStep [⟨("a" : String).toList, 0, 1, 1⟩] (initAggState 1)
        [⟨("b" : String).toList, 0, 1, 1⟩] =
      { initAggState 1 with
          name_mismatch_count := (initAggState 1).name_mismatch_count + 1 } :=
  ⟨(aggregator_mismatch_spec [⟨("a" : String).toList, 0, 1, 1⟩] (initAggState 1)
      [⟨("a" : String).toList, 0, 1, 1⟩, ⟨("a" : String).toList, 0, 1, 1⟩]).1 (by decide),
   (aggregator_mismatch_spec [⟨("a" : String).toList, 0, 1, 1⟩] (initAggState 1)
      [⟨("b" : String).toList, 0, 1, 1⟩]).2.1 rfl (by decide)⟩

/-! ## Claim C4: emission of the averaged records -/

/-- Claim C4: the emitted report has exactly one row — the reference name
with each accumulated sum divided by the position's count — for every
reference position whose count is positive, none for zero-count positions,
and the rows appear in reference-position order. -/
theorem emit_records_spec (reference_step : List GpuOperation)
    (position_stats : List PositionStats)
    (hlen : position_stats.length = reference_step.length) :
    emitStats reference_step position_stats =
      ((List.range reference_step.length).filter
          (fun idx => decide (0 < (position_stats.getD idx PositionStats.init).count))).map
        (fun idx => avgRecord
          (reference_step.getD idx ⟨[], 0, 0, 0⟩)
          (position_stats.getD idx PositionStats.init)) := by
  induction reference_step generalizing position_stats with
  | nil =>
    have hnil : position_stats = [] := List.length_eq_zero.mp hlen
    subst hnil
    simp [emitStats]
  | cons r rs ih =>
    cases position_stats with
    | nil => simp at hlen
    | cons p ps =>
      have hlen' : ps.length = rs.length := by simpa using hlen
      have hP : ((fun idx => decide (0 < ((p :: ps).getD idx PositionStats.init).count))
            ∘ Nat.succ)
          = (fun idx => decide (0 < (ps.getD idx PositionStats.init).count)) := by
        funext idx
        simp [Function.comp, List.getD_cons_succ]
      have hF : ((fun idx => avgRecord ((r :: rs).getD idx ⟨[], 0, 0, 0⟩)
            ((p :: ps).getD idx PositionStats.init)) ∘ Nat.succ)
          = (fun idx => avgRecord (rs.getD idx ⟨[], 0, 0, 0⟩)
            (ps.getD idx PositionStats.init)) := by
        funext idx
        simp [Function.comp, List.getD_cons_succ]
      rw [List.length_cons, List.range_succ_eq_map, List.filter_cons, List.filter_map]
      simp only [List.getD_cons_zero]
      by_cases hc : 0 < p.count
      · rw [if_pos (by simpa using hc)]
        simp only [emitStats, if_pos hc]
        rw [ih ps hlen', List.map_cons, List.map_map, hP, hF]
        simp [List.getD_cons_zero]
      · rw [if_neg (by simpa using hc)]
        simp only [emitStats, if_neg hc]
        rw [ih ps hlen', List.map_map, hP, hF]

/-- Witness for C4 at a one-position reference with a positive count. -/
theorem emit_records_spec_witness :
    emitStats [⟨("a" : String).toList, 0, 1, 1⟩] [⟨4, 6, 2, 1, 2⟩] =
      ((List.range 1).filter
          (fun idx => decide (0 <
            (([⟨4, 6, 2, 1, 2⟩] : List PositionStats).getD idx PositionStats.init).count))).map
        (fun idx => avgRecord
          (([⟨("a" : String).toList, 0, 1, 1⟩] : List GpuOperation).getD idx ⟨[], 0, 0, 0⟩)
          (([⟨4, 6, 2, 1, 2⟩] : List PositionStats).getD idx PositionStats.init)) :=
  emit_records_spec [⟨("a" : String).toList, 0, 1, 1⟩] [⟨4, 6, 2, 1, 2⟩] rfl

/-! ## Lemmas about the length tally and the maximum selection -/

theorem lookup_bumpTally (t : List (Nat × Nat)) (len x : Nat) :
    lookupTally (bumpTally t len) x =
      if len = x then lookupTally t x + 1 else lookupTally t x := by
  induction t with
  | nil => simp [bumpTally, lookupTally]
  | cons hd rest ih =>
    obtain ⟨l, c⟩ := hd
    by_cases hl : l = len
    · subst hl
      have hb : bumpTally ((l, c) :: rest) l = (l, c + 1) :: rest := by
        simp [bumpTally]
      rw [hb]
      simp only [lookupTally]
      by_cases hx : l = x
      · subst hx
        simp
      · simp [hx]
    · have hb : bumpTally ((l, c) :: rest) len = (l, c) :: bumpTally rest len := by
        simp only [bumpTally]
        rw [if_neg hl]
      rw [hb]
      simp only [lookupTally]
      by_cases hx : l = x
      · subst hx
        have hln : ¬ len = l := fun h => hl h.symm
        simp [hln]
      · simp only [if_neg hx]
        exact ih

theorem lookupTally_zero_or_mem (t : List (Nat × Nat)) (x : Nat) :
    lookupTally t x = 0 ∨ (x, lookupTally t x) ∈ t := by
  induction t with
  | nil => exact Or.inl rfl
  | cons hd rest ih =>
    obtain ⟨l, c⟩ := hd
    by_cases hx : l = x
    · subst hx
      right
      simp [lookupTally]
    · simp only [lookupTally, if_neg hx]
      rcases ih with h | h
      · exact Or.inl h
      · exact Or.inr (List.mem_cons_of_mem _ h)

theorem bumpTally_pos (t : List (Nat × Nat)) (len : Nat)
    (h : ∀ pr ∈ t, 1 ≤ pr.2) : ∀ pr ∈ bumpTally t len, 1 ≤ pr.2 := by
  induction t with
  | nil =>
    intro pr hpr
    simp only [bumpTally, List.mem_singleton] at hpr
    subst hpr
    exact le_refl 1
  | cons hd rest ih =>
    obtain ⟨l, c⟩ := hd
    intro pr hpr
    by_cases hl : l = len
    · rw [show bumpTally ((l, c) :: rest) len = (l, c + 1) :: rest from by
        subst hl; simp [bumpTally]] at hpr
      rcases List.mem_cons.mp hpr with h1 | h1
      · subst h1
        exact Nat.le_add_left 1 c
      · exact h pr (List.mem_cons_of_mem _ h1)
    · rw [show bumpTally ((l, c) :: rest) len = (l, c) :: bumpTally rest len from by
        simp [bumpTally, hl]] at hpr
      rcases List.mem_cons.mp hpr with h1 | h1
      · subst h1
        exact h (l, c) (List.mem_cons_self _ _)
      · exact ih (fun q hq => h q (List.mem_cons_of_mem _ hq)) pr h1

theorem bumpTally_keys_subset (t : List (Nat × Nat)) (len x : Nat)
    (hx : x ∈ (bumpTally t len).map Prod.fst) :
    x ∈ t.map Prod.fst ∨ x = len := by
  induction t with
  | nil =>
    simp only [bumpTally, List.map_cons, List.map_nil, List.mem_singleton] at hx
    exact Or.inr hx
  | cons hd rest ih =>
    obtain ⟨l, c⟩ := hd
    by_cases hl : l = len
    · rw [show bumpTally ((l, c) :: rest) len = (l, c + 1) :: rest from by
        subst hl; simp [bumpTally]] at hx
      rw [List.map_cons, List.mem_cons] at hx
      rw [List.map_cons, List.mem_cons]
      exact Or.inl hx
    · rw [show bumpTally ((l, c) :: rest) len = (l, c) :: bumpTally rest len from by
        simp [bumpTally, hl]] at hx
      rw [List.map_cons, List.mem_cons] at hx
      rw [List.map_cons, List.mem_cons]
      rcases hx with h1 | h1
      · exact Or.inl (Or.inl h1)
      · rcases ih h1 with h2 | h2
        · exact Or.inl (Or.inr h2)
        · exact Or.inr h2

theorem bumpTally_keys_nodup (t : List (Nat × Nat)) (len : Nat)
    (h : (t.map Prod.fst).Nodup) : ((bumpTally t len).map Prod.fst).Nodup := by
  induction t with
  | nil => simp [bumpTally]
  | cons hd rest ih =>
    obtain ⟨l, c⟩ := hd
    rw [List.map_cons, List.nodup_cons] at h
    by_cases hl : l = len
    · rw [show bumpTally ((l, c) :: rest) len = (l, c + 1) :: rest from by
        subst hl; simp [bumpTally]]
      rw [List.map_cons, List.nodup_cons]
      exact h
    · rw [show bumpTally ((l, c) :: rest) len = (l, c) :: bumpTally rest len from by
        simp [bumpTally, hl]]
      rw [List.map_cons, List.nodup_cons]
      constructor
      · intro hmem
        rcases bumpTally_keys_subset rest len l hmem with h2 | h2
        · exact h.1 h2
        · exact hl h2
      · exact ih h.2

theorem foldl_bump_keys_nodup (xss : List (List GpuOperation)) (t : List (Nat × Nat))
    (h : (t.map Prod.fst).Nodup) :
    ((xss.foldl (fun t ops => bumpTally t ops.length) t).map Prod.fst).Nodup := by
  induction xss generalizing t with
  | nil => exact h
  | cons a xs ih => exact ih _ (bumpTally_keys_nodup _ _ h)

theorem foldl_bump_pos (xss : List (List GpuOperation)) (t : List (Nat × Nat))
    (h : ∀ pr ∈ t, 1 ≤ pr.2) :
    ∀ pr ∈ xss.foldl (fun t ops => bumpTally t ops.length) t, 1 ≤ pr.2 := by
  induction xss generalizing t with
  | nil => exact h
  | cons a xs ih => exact ih _ (bumpTally_pos _ _ h)

theorem foldl_bump_ne_nil (xss : List (List GpuOperation)) (t : List (Nat × Nat))
    (h : t ≠ [] ∨ xss ≠ []) :
    xss.foldl (fun t ops => bumpTally t ops.length) t ≠ [] := by
  induction xss generalizing t with
  | nil =>
    rcases h with h | h
    · simpa using h
    · exact absurd rfl h
  | cons a xs ih =>
    rw [List.foldl_cons]
    apply ih
    left
    cases t with
    | nil => simp [bumpTally]
    | cons hd rest =>
      obtain ⟨l, c⟩ := hd
      simp only [bumpTally]
      split <;> simp

theorem lookup_foldl_bump (xss : List (List GpuOperation)) (t : List (Nat × Nat)) (x : Nat) :
    lookupTally (xss.foldl (fun t ops => bumpTally t ops.length) t) x =
      lookupTally t x + xss.countP (fun ops => ops.length == x) := by
  induction xss generalizing t with
  | nil => simp
  | cons a xs ih =>
    rw [List.foldl_cons, ih, lookup_bumpTally, List.countP_cons]
    by_cases h : a.length = x
    · simp [h]
      omega
    · simp [h]

theorem lookupTally_of_mem_nodup (t : List (Nat × Nat))
    (hnd : (t.map Prod.fst).Nodup) (pr : Nat × Nat) (hpr : pr ∈ t) :
    lookupTally t pr.1 = pr.2 := by
  induction t with
  | nil => simp at hpr
  | cons hd rest ih =>
    obtain ⟨l, c⟩ := hd
    rw [List.map_cons, List.nodup_cons] at hnd
    rcases List.mem_cons.mp hpr with h1 | h1
    · subst h1
      simp [lookupTally]
    · have hne : l ≠ pr.1 := by
        intro he
        exact hnd.1 (he ▸ List.mem_map.mpr ⟨pr, h1, rfl⟩)
      simp only [lookupTally, if_neg hne]
      exact ih hnd.2 h1

theorem selectMax_go (t : List (Nat × Nat)) (q : Nat × Nat) :
    ∃ p, t.foldl
        (fun acc p =>
          match acc with
          | none => some p
          | some q => if q.2 ≤ p.2 then some p else some q)
        (some q) = some p ∧
      (p ∈ t ∨ p = q) ∧ q.2 ≤ p.2 ∧ ∀ x ∈ t, x.2 ≤ p.2 := by
  induction t generalizing q with
  | nil => exact ⟨q, rfl, Or.inr rfl, le_refl _, by simp⟩
  | cons a rest ih =>
    rw [List.foldl_cons]
    by_cases hqa : q.2 ≤ a.2
    · obtain ⟨p, h1, h2, h3, h4⟩ := ih a
      refine ⟨p, by simpa [if_pos hqa] using h1, ?_, le_trans hqa h3, ?_⟩
      · rcases h2 with h | h
        · exact Or.inl (List.mem_cons_of_mem _ h)
        · exact Or.inl (h ▸ List.mem_cons_self _ _)
      · intro x hx
        rcases List.mem_cons.mp hx with rfl | hx
        · exact h3
        · exact h4 x hx
    · obtain ⟨p, h1, h2, h3, h4⟩ := ih q
      refine ⟨p, by simpa [if_neg hqa] using h1, ?_, h3, ?_⟩
      · rcases h2 with h | h
        · exact Or.inl (List.mem_cons_of_mem _ h)
        · exact Or.inr h
      · intro x hx
        rcases List.mem_cons.mp hx with rfl | hx
        · exact le_trans (le_of_lt (lt_of_not_le hqa)) h3
        · exact h4 x hx

theorem selectMax_spec (t : List (Nat × Nat)) (h : t ≠ []) :
    ∃ p, selectMax t = some p ∧ p ∈ t ∧ ∀ x ∈ t, x.2 ≤ p.2 := by
  cases t with
  | nil => exact absurd rfl h
  | cons a rest =>
    rw [selectMax, List.foldl_cons]
    obtain ⟨p, h1, h2, h3, h4⟩ := selectMax_go rest a
    refine ⟨p, h1, ?_, ?_⟩
    · rcases h2 with hm | hm
      · exact List.mem_cons_of_mem _ hm
      · exact hm ▸ List.mem_cons_self _ _
    · intro x hx
      rcases List.mem_cons.mp hx with rfl | hx
      · exact h3
      · exact h4 x hx

/-- Shared backbone for the shape-selection claims: with at least one
non-empty sequence, the selector returns a length of maximal tally, the
reference is the first sequence of that length, and the whole computation
succeeds with the aggregation against that reference. -/
theorem shape_selection_success (step_operations : List (List GpuOperation))
    (h : ∃ s ∈ step_operations, s ≠ []) :
    ∃ L reference_step pre post,
      selectLen (tallyLengths step_operations) = some L ∧
      1 ≤ lengthTally step_operations L ∧
      (∀ l, lengthTally step_operations l ≤ lengthTally step_operations L) ∧
      step_operations.find? (fun ops => ops.length == L) = some reference_step ∧
      step_operations = pre ++ reference_step :: post ∧
      reference_step.length = L ∧
      (∀ s ∈ pre, s.length ≠ L) ∧
      calculate_average_stats step_operations =
        Except.ok (emitStats reference_step
          (aggregateSteps reference_step step_operations).position_stats) := by
  obtain ⟨s0, hs0, hs0ne⟩ := h
  have hfilter_ne : step_operations.filter (fun ops => !ops.isEmpty) ≠ [] := by
    intro hnil
    rw [List.filter_eq_nil_iff] at hnil
    exact hnil s0 hs0 (by simp [List.isEmpty_eq_false.mpr hs0ne])
  have htally_ne : tallyLengths step_operations ≠ [] := by
    rw [tallyLengths]
    exact foldl_bump_ne_nil _ _ (Or.inr hfilter_ne)
  obtain ⟨⟨L, c⟩, hmax, hmem, hmaxall⟩ := selectMax_spec _ htally_ne
  have hnodup : ((tallyLengths step_operations).map Prod.fst).Nodup := by
    rw [tallyLengths]
    exact foldl_bump_keys_nodup _ [] (by simp)
  have hposall : ∀ pr ∈ tallyLengths step_operations, 1 ≤ pr.2 := by
    rw [tallyLengths]
    exact foldl_bump_pos _ [] (by simp)
  have hlookupL : lookupTally (tallyLengths step_operations) L = c :=
    lookupTally_of_mem_nodup _ hnodup (L, c) hmem
  have hlookup_count : ∀ x,
      lookupTally (tallyLengths step_operations) x = lengthTally step_operations x := by
    intro x
    rw [tallyLengths, lengthTally, lookup_foldl_bump]
    simp [lookupTally]
  have hc_eq : lengthTally step_operations L = c := by
    rw [← hlookup_count, hlookupL]
  have hcpos : 1 ≤ c := hposall (L, c) hmem
  have hmax_prop : ∀ l,
      lengthTally step_operations l ≤ lengthTally step_operations L := by
    intro l
    rw [hc_eq, ← hlookup_count]
    rcases lookupTally_zero_or_mem (tallyLengths step_operations) l with h0 | hmem2
    · rw [h0]
      exact Nat.zero_le c
    · exact hmaxall _ hmem2
  have hex : ∃ ops ∈ step_operations, (ops.length == L) = true := by
    have hcount : 0 < lengthTally step_operations L := by omega
    obtain ⟨ops, hops, hP⟩ := List.countP_pos_iff.mp hcount
    exact ⟨ops, (List.mem_filter.mp hops).1, hP⟩
  obtain ⟨reference_step, hfind⟩ :=
    Option.isSome_iff_exists.mp (List.find?_isSome.mpr hex)
  obtain ⟨hPref, pre, post, hsplit, hpre⟩ := List.find?_eq_some.mp hfind
  have hlenref : reference_step.length = L := by simpa using hPref
  have hselectLen : selectLen (tallyLengths step_operations) = some L := by
    rw [selectLen, hmax]
    rfl
  have hne_steps : step_operations ≠ [] := by
    intro hnil
    rw [hnil] at hs0
    simp at hs0
  refine ⟨L, reference_step, pre, post, hselectLen, by omega, hmax_prop, hfind, hsplit,
    hlenref, ?_, ?_⟩
  · intro s hs
    have := hpre s hs
    simpa using this
  · simp only [calculate_average_stats, List.isEmpty_eq_false.mpr hne_steps,
      Bool.false_eq_true, if_false, hselectLen, hfind]

/-! ## Claim C1: representative-shape selection -/

/-- Claim C1: with at least one non-empty per-step sequence the selector
tallies lengths over the non-empty sequences, picks a length of maximal
tally, and the reference sequence is the first sequence (in step order)
of that length, after which the computation succeeds; if every sequence
is empty the computation fails with a descriptive error. -/
theorem shape_selector_spec (step_operations : List (List GpuOperation)) :
    ((∃ s ∈ step_operations, s ≠ []) →
      ∃ L reference_step pre post,
        selectLen (tallyLengths step_operations) = some L ∧
        1 ≤ lengthTally step_operations L ∧
        (∀ l, lengthTally step_operations l ≤ lengthTally step_operations L) ∧
        step_operations = pre ++ reference_step :: post ∧
        reference_step.length = L ∧
        (∀ s ∈ pre, s.length ≠ L) ∧
        calculate_average_stats step_operations =
          Except.ok (emitStats reference_step
            (aggregateSteps reference_step step_operations).position_stats)) ∧
    ((∀ s ∈ step_operations, s = []) →
      ∃ msg, calculate_average_stats step_operations = Except.error msg) := by
  constructor
  · intro h
    obtain ⟨L, ref, pre, post, h1, h2, h3, _, h5, h6, h7, h8⟩ :=
      shape_selection_success step_operations h
    exact ⟨L, ref, pre, post, h1, h2, h3, h5, h6, h7, h8⟩
  · intro hall
    cases step_operations with
    | nil => exact ⟨"No ProfileStep data available", rfl⟩
    | cons a as =>
      have hfilter : (a :: as).filter (fun ops => !ops.isEmpty) = [] := by
        rw [List.filter_eq_nil_iff]
        intro s hs
        simp [hall s hs]
      have htally : tallyLengths (a :: as) = [] := by
        rw [tallyLengths, hfilter]
        rfl
      exact ⟨"All ProfileSteps are empty",
        by simp [calculate_average_stats, htally, selectLen, selectMax]⟩

/-- Witness for C1: the non-empty branch at a single one-operation step,
and the all-empty branch at a single empty step. -/
theorem shape_selector_spec_witness :
    (∃ L reference_step pre post,
      selectLen (tallyLengths [[⟨("a" : String).toList, 0, 1, 1⟩]]) = some L ∧
      1 ≤ lengthTally [[⟨("a" : String).toList, 0, 1, 1⟩]] L ∧
      (∀ l, lengthTally [[⟨("a" : String).toList, 0, 1, 1⟩]] l ≤
        lengthTally [[⟨("a" : String).toList, 0, 1, 1⟩]] L) ∧
      [[⟨("a" : String).toList, 0, 1, 1⟩]] = pre ++ reference_step :: post ∧
      reference_step.length = L ∧
      (∀ s ∈ pre, s.length ≠ L) ∧
      calculate_average_stats [[⟨("a" : String).toList, 0, 1, 1⟩]] =
        Except.ok (emitStats reference_step
          (aggregateSteps reference_step
            [[⟨("a" : String).toList, 0, 1, 1⟩]]).position_stats)) ∧
    (∃ msg, calculate_average_stats [([] : List GpuOperation)] = Except.error msg) :=
  ⟨(shape_selector_spec [[⟨("a" : String).toList, 0, 1, 1⟩]]).1
      ⟨[⟨("a" : String).toList, 0, 1, 1⟩], List.mem_singleton_self _, List.cons_ne_nil _ _⟩,
   (shape_selector_spec [([] : List GpuOperation)]).2 (by decide)⟩

/-! ## Claim C10: the reference always contributes -/

theorem addOps_length (prev : ℚ) (position_stats : List PositionStats)
    (step_ops : List GpuOperation) :
    (addOps prev position_stats step_ops).length = position_stats.length := by
  induction position_stats generalizing prev step_ops with
  | nil => cases step_ops <;> simp [addOps]
  | cons p ps ih =>
    cases step_ops with
    | nil => simp [addOps]
    | cons c cs => simp [addOps, ih]

theorem processStep_stats_length (reference_step : List GpuOperation)
    (st : AggState) (s : List GpuOperation) :
    (processStep reference_step st s).position_stats.length =
      st.position_stats.length := by
  by_cases h1 : s.length ≠ reference_step.length
  · simp [processStep, h1]
  · cases h2 : namesMatch s reference_step
    · simp [processStep, h1, h2]
    · simp [processStep, h1, h2, addOps_length]

theorem foldl_stats_length (reference_step : List GpuOperation)
    (ls : List (List GpuOperation)) (st : AggState) :
    (ls.foldl (processStep reference_step) st).position_stats.length =
      st.position_stats.length := by
  induction ls generalizing st with
  | nil => rfl
  | cons a as ih => rw [List.foldl_cons, ih, processStep_stats_length]

theorem addOps_count_le (prev : ℚ) (position_stats : List PositionStats)
    (step_ops : List GpuOperation) (i : Nat) (p : PositionStats)
    (hp : position_stats[i]? = some p) :
    ∃ q, (addOps prev position_stats step_ops)[i]? = some q ∧ p.count ≤ q.count := by
  induction position_stats generalizing prev step_ops i with
  | nil => simp at hp
  | cons p0 ps ih =>
    cases step_ops with
    | nil => exact ⟨p, by simpa [addOps] using hp, le_refl _⟩
    | cons c0 cs =>
      cases i with
      | zero =>
        simp only [List.getElem?_cons_zero, Option.some.injEq] at hp
        subst hp
        exact ⟨{ total_start := p0.total_start + c0.start_time
               , total_end := p0.total_end + c0.end_time
               , total_duration := p0.total_duration + c0.duration
               , total_bubble := p0.total_bubble + max (c0.start_time - prev) 0
               , count := p0.count + 1 }, by simp [addOps], Nat.le_succ _⟩
      | succ j =>
        rw [List.getElem?_cons_succ] at hp
        obtain ⟨q, h1, h2⟩ := ih c0.end_time cs j hp
        exact ⟨q, by simpa [addOps, List.getElem?_cons_succ] using h1, h2⟩

theorem processStep_count_le (reference_step : List GpuOperation) (st : AggState)
    (s : List GpuOperation) (i : Nat) (p : PositionStats)
    (hp : st.position_stats[i]? = some p) :
    ∃ q, (processStep reference_step st s).position_stats[i]? = some q ∧
      p.count ≤ q.count := by
  by_cases h1 : s.length ≠ reference_step.length
  · exact ⟨p, by simpa [processStep, h1] using hp, le_refl _⟩
  · cases h2 : namesMatch s reference_step
    · exact ⟨p, by simpa [processStep, h1, h2] using hp, le_refl _⟩
    · obtain ⟨q, hq, hle⟩ := addOps_count_le 0 st.position_stats s i p hp
      exact ⟨q, by simpa [processStep, h1, h2] using hq, hle⟩

theorem foldl_count_le (reference_step : List GpuOperation)
    (ls : List (List GpuOperation)) (st : AggState) (i : Nat) (p : PositionStats)
    (hp : st.position_stats[i]? = some p) :
    ∃ q, (ls.foldl (processStep reference_step) st).position_stats[i]? = some q ∧
      p.count ≤ q.count := by
  induction ls generalizing st p with
  | nil => exact ⟨p, hp, le_refl _⟩
  | cons a as ih =>
    obtain ⟨p1, hp1, hle1⟩ := processStep_count_le reference_step st a i p hp
    obtain ⟨p2, hp2, hle2⟩ := ih (processStep reference_step st a) p1 hp1
    exact ⟨p2, by simpa using hp2, le_trans hle1 hle2⟩

theorem namesMatch_self (l : List GpuOperation) : namesMatch l l = true := by
  induction l with
  | nil => rfl
  | cons a as ih =>
    simp only [namesMatch, List.zip_cons_cons, List.all_cons, beq_self_eq_true,
      Bool.true_and]
    exact ih

theorem processStep_self_count (reference_step : List GpuOperation) (st : AggState)
    (i : Nat) (p : PositionStats) (cur : GpuOperation)
    (hp : st.position_stats[i]? = some p) (hr : reference_step[i]? = some cur) :
    ∃ q, (processStep reference_step st reference_step).position_stats[i]? = some q ∧
      p.count + 1 ≤ q.count := by
  have h1 : ¬ (reference_step.length ≠ reference_step.length) := by simp
  have h2 : namesMatch reference_step reference_step = true := namesMatch_self _
  have hps : (processStep reference_step st reference_step).position_stats =
      addOps 0 st.position_stats reference_step := by
    simp [processStep, h1, h2]
  rw [hps]
  exact ⟨_, addOps_getElem st.position_stats reference_step 0 i p cur hp hr, le_refl _⟩

theorem emitStats_length_of_pos (reference_step : List GpuOperation)
    (position_stats : List PositionStats)
    (hlen : position_stats.length = reference_step.length)
    (hpos : ∀ i : Nat, ∀ p : PositionStats, position_stats[i]? = some p → 1 ≤ p.count) :
    (emitStats reference_step position_stats).length = reference_step.length := by
  induction reference_step generalizing position_stats with
  | nil =>
    have hnil : position_stats = [] := List.length_eq_zero.mp hlen
    subst hnil
    rfl
  | cons r rs ih =>
    cases position_stats with
    | nil => simp at hlen
    | cons p ps =>
      have hc : 0 < p.count := hpos 0 p List.getElem?_cons_zero
      simp only [emitStats, if_pos hc, List.length_cons]
      rw [ih ps (by simpa using hlen) (fun i q hq => hpos (i + 1) q (by simpa using hq))]

/-- Claim C10: whenever the shape selector succeeds, the reference sequence
is one of the step sequences and matches itself, so after aggregation every
reference position has a contributing count of at least one and the report
has exactly one row per reference position (the zero-count omission branch
never fires). -/
theorem reference_self_alignment (step_operations : List (List GpuOperation))
    (h : ∃ s ∈ step_operations, s ≠ []) :
    ∃ L reference_step records,
      selectLen (tallyLengths step_operations) = some L ∧
      step_operations.find? (fun ops => ops.length == L) = some reference_step ∧
      calculate_average_stats step_operations = Except.ok records ∧
      (∀ i : Nat, ∀ p : PositionStats,
        (aggregateSteps reference_step step_operations).position_stats[i]? = some p →
        1 ≤ p.count) ∧
      records.length = reference_step.length := by
  obtain ⟨L, ref, pre, post, hsel, _, _, hfind, hsplit, hlenref, _, hok⟩ :=
    shape_selection_success step_operations h
  have hcount : ∀ i : Nat, ∀ p : PositionStats,
      (aggregateSteps ref step_operations).position_stats[i]? = some p →
      1 ≤ p.count := by
    intro i p hp
    have hag : aggregateSteps ref step_operations =
        List.foldl (processStep ref)
          (processStep ref (List.foldl (processStep ref) (initAggState ref.length) pre)
            ref)
          post := by
      rw [aggregateSteps, hsplit, List.foldl_append, List.foldl_cons]
    have hlen_all : (aggregateSteps ref step_operations).position_stats.length =
        ref.length := by
      rw [aggregateSteps, foldl_stats_length]
      simp [initAggState]
    have hi : i < ref.length := by
      rw [← hlen_all]
      exact (List.getElem?_eq_some.mp hp).1
    have hst1len : (List.foldl (processStep ref) (initAggState ref.length)
        pre).position_stats.length = ref.length := by
      rw [foldl_stats_length]
      simp [initAggState]
    obtain ⟨p0, hp0⟩ : ∃ p0, (List.foldl (processStep ref) (initAggState ref.length)
        pre).position_stats[i]? = some p0 :=
      ⟨_, List.getElem?_eq_getElem (by rw [hst1len]; exact hi)⟩
    obtain ⟨cur, hcur⟩ : ∃ cur, ref[i]? = some cur :=
      ⟨_, List.getElem?_eq_getElem hi⟩
    obtain ⟨p1, hp1, hle1⟩ := processStep_self_count ref _ i p0 cur hp0 hcur
    obtain ⟨p2, hp2, hle2⟩ := foldl_count_le ref post _ i p1 hp1
    rw [hag] at hp
    rw [hp] at hp2
    have hpeq : p = p2 := Option.some.inj hp2
    rw [hpeq]
    omega
  refine ⟨L, ref, _, hsel, hfind, hok, hcount, ?_⟩
  apply emitStats_length_of_pos
  · rw [aggregateSteps, foldl_stats_length]
    simp [initAggState]
  · exact hcount

/-- Witness for C10 at a single non-empty step. -/
theorem reference_self_alignment_witness :
    ∃ L reference_step records,
      selectLen (tallyLengths [[⟨("b" : String).toList, 1, 2, 1⟩]]) = some L ∧
      ([[⟨("b" : String).toList, 1, 2, 1⟩]] : List (List GpuOperation)).find?
        (fun ops => ops.length == L) = some reference_step ∧
      calculate_average_stats [[⟨("b" : String).toList, 1, 2, 1⟩]] =
        Except.ok records ∧
      (∀ i : Nat, ∀ p : PositionStats,
        (aggregateSteps reference_step
          [[⟨("b" : String).toList, 1, 2, 1⟩]]).position_stats[i]? = some p →
        1 ≤ p.count) ∧
      records.length = reference_step.length :=
  reference_self_alignment [[⟨("b" : String).toList, 1, 2, 1⟩]]
    ⟨[⟨("b" : String).toList, 1, 2, 1⟩], List.mem_singleton_self _, List.cons_ne_nil _ _⟩
